import Mathlib

/-!
Verification of the P&L aggregation and reporting engine of the
school-finance-app repository (React front-end over a remote store).

The development shallowly embeds the pure logic of the repository:

* `filteredTransactions` — the date-range filter of `App.jsx`
  (`const filteredTransactions = allTransactions.filter(...)`), with JS
  `new Date` on the ISO `YYYY-MM-DD` strings the app stores modelled by
  `parseDate` (a civil-day number; `end.setDate(end.getDate() + 1)`
  becomes `+ 1` on day numbers; an invalid `Date` becomes `none`, and
  every comparison against it is false, exactly as with `NaN`).
* `getPLSummaryData` — the P&L aggregator shared by `App.jsx` and the
  report component (both variants have identical logic, one reading
  `head_type`/`head_id` and one `headType`/`headId`; a single embedding
  covers both).  The JS object `summary` (string keys, insertion order)
  is modelled as an association list `SummaryMap`; `summary[k] = v` is
  `setEntry` (replace in place, else append) and the in-place `+=` is
  `updateEntry`.  `.sort((a, b) => a.Head.localeCompare(b.Head))` — a
  stable sort by head name — is modelled by Mathlib's stable
  `insertionSort` under code-point string order.
* `getPLSummary` — the all-time aggregator of `AllTimeSummary.jsx`
  (resolves missing heads to "Unknown" via `?.name || 'Unknown'`, does
  not seed, filter or sort, and labels rows by `income > 0`).
* `convertArrayOfObjectsToCSV` — the CSV serializer; a record is an
  association list of key to optional string (`none` models both a
  `null` field and an absent key, i.e. `undefined`), `replace(/"/g,'""')`
  is `escapeQuotes`, and `search(/("|,|\n)/g) >= 0` is `cellNeedsQuoting`.

Monetary amounts are JS numbers used as exact decimal amounts by the
app; they are modelled as exact integers (`Int`, e.g. minor currency
units — every aggregation step is agnostic to the scale and performs
only addition, subtraction and comparison with zero).  Store-assigned
ids are opaque and modelled as `Nat`.
-/

/-- A P&L head (category): `{ id, name, headType }` (Supabase variant
spells the last field `head_type`; the two are the same datum). -/
structure Head where
  id : Nat
  name : String
  headType : String
deriving DecidableEq, Repr

/-- A transaction: `{ id, amount, type, headId, date }` (the fields the
aggregation and filtering logic reads; `description`, `receiptUrl` and
`createdAt` are never consulted by it). -/
structure Transaction where
  id : Nat
  amount : Int
  type : String
  headId : Nat
  date : String
deriving DecidableEq, Repr

/-- A value of the JS object `summary`: `{ income, expense, type }`. -/
structure SummaryEntry where
  income : Int
  expense : Int
  type : String
deriving DecidableEq, Repr

/-- A row of the aggregator's output:
`{ Head, Type, Income, Expense, Net }`. -/
structure SummaryRow where
  Head : String
  «Type» : String
  Income : Int
  Expense : Int
  Net : Int
deriving DecidableEq, Repr

/-- A row of the all-time aggregator's output of `AllTimeSummary.jsx`:
`{ head, type, income, expense, net }`. -/
structure AllTimeRow where
  head : String
  type : String
  income : Int
  expense : Int
  net : Int
deriving DecidableEq, Repr

/-- The JS object `summary`: string keys in insertion order. -/
abbrev SummaryMap := List (String × SummaryEntry)

/-- Key lookup `summary[k]`. -/
def getEntry (m : SummaryMap) (k : String) : Option SummaryEntry :=
  (m.find? (fun p => p.1 == k)).map (·.2)

/-- Truthiness of `summary[k]` (the stored objects are always truthy,
so this is key membership). -/
def hasKey (m : SummaryMap) (k : String) : Bool :=
  m.any (fun p => p.1 == k)

/-- Assignment `summary[k] = e`: replace the value of the (unique) entry holding
key `k` in place, keeping its position, or append a new entry when the
key is absent — JS object assignment semantics. -/
def setEntry (m : SummaryMap) (k : String) (e : SummaryEntry) : SummaryMap :=
  match m with
  | [] => [(k, e)]
  | p :: rest => if p.1 == k then (p.1, e) :: rest else p :: setEntry rest k e

/-- In-place mutation of the entry at an existing key
(`summary[k].income += ...` and the like); no effect on an absent key. -/
def updateEntry (m : SummaryMap) (k : String) (f : SummaryEntry → SummaryEntry) :
    SummaryMap :=
  match m with
  | [] => []
  | p :: rest => if p.1 == k then (p.1, f p.2) :: rest else p :: updateEntry rest k f

/-- Lexicographic code-point comparison of character lists: the model of
`a.localeCompare(b) <= 0` (JS string collation, approximated by code-point
order, which is what `localeCompare` degrades to absent locale data). -/
def charListLe : List Char → List Char → Bool
  | [], _ => true
  | _ :: _, [] => false
  | a :: as, b :: bs =>
    if a.toNat < b.toNat then true
    else if b.toNat < a.toNat then false
    else charListLe as bs

/-- The comparison `a.localeCompare(b) <= 0` on strings. -/
def strLe (a b : String) : Bool :=
  charListLe a.data b.data

/-- Resolution `headList.find(h => h.id === t.head_id)`, then
`head ? head.name : 'Uncategorized'`. -/
def resolveName (headList : List Head) (t : Transaction) : String :=
  match headList.find? (fun h => h.id == t.headId) with
  | some h => h.name
  | none => "Uncategorized"

/-- The seeding loop of `getPLSummaryData`:
`headList.forEach(h => { summary[h.name] = { income: 0, expense: 0, type: h.head_type } })`. -/
def seedHeads (headList : List Head) : SummaryMap :=
  headList.foldl (fun summary h => setEntry summary h.name ⟨0, 0, h.headType⟩) []

/-- The body of the transaction loop of `getPLSummaryData`: resolve the
head name, insert a fresh entry typed by the transaction when the key is
absent, then add the amount to the income accumulator when
`t.type === 'income'` and to the expense accumulator otherwise. -/
def applyTransaction (headList : List Head) (m : SummaryMap) (t : Transaction) :
    SummaryMap :=
  let headName := resolveName headList t
  let m' := if hasKey m headName then m else m ++ [(headName, ⟨0, 0, t.type⟩)]
  if t.type == "income" then
    updateEntry m' headName (fun e => { e with income := e.income + t.amount })
  else
    updateEntry m' headName (fun e => { e with expense := e.expense + t.amount })

/-- The loop `transactionList.forEach(t => ...)` over an initial summary map. -/
def processTransactions (headList : List Head) (m : SummaryMap)
    (transactionList : List Transaction) : SummaryMap :=
  transactionList.foldl (applyTransaction headList) m

/-- Row emission `Object.keys(summary).map(...)`: one output row per map entry, with
`Net = Income - Expense`. -/
def summaryRows (m : SummaryMap) : List SummaryRow :=
  m.map (fun p => ⟨p.1, p.2.type, p.2.income, p.2.expense, p.2.income - p.2.expense⟩)

/-- The P&L aggregator `getPLSummaryData(transactionList, headList)` of
`App.jsx` (Supabase variant) and of the report component: seed with all
heads, fold the transactions in, emit rows, drop rows with
`Income > 0 || Expense > 0` false, and stable-sort ascending by head
name (`a.Head.localeCompare(b.Head)`, modelled as code-point order). -/
def getPLSummaryData (transactionList : List Transaction) (headList : List Head) :
    List SummaryRow :=
  let summary := processTransactions headList (seedHeads headList) transactionList
  ((summaryRows summary).filter
      (fun item => decide (0 < item.Income) || decide (0 < item.Expense))).insertionSort
    (fun a b => strLe a.Head b.Head = true)

/-- Resolution `heads.find(h => h.id === t.headId)?.name || 'Unknown'` of
`AllTimeSummary.jsx` (a found head with an empty — falsy — name also
falls back to `'Unknown'`). -/
def resolveNameAllTime (heads : List Head) (t : Transaction) : String :=
  match heads.find? (fun h => h.id == t.headId) with
  | some h => if h.name == "" then "Unknown" else h.name
  | none => "Unknown"

/-- The transaction loop body of `getPLSummary` in `AllTimeSummary.jsx`
(no seeding; a fresh entry records the first contributing transaction's
`type`). -/
def applyTransactionAllTime (heads : List Head) (m : SummaryMap) (t : Transaction) :
    SummaryMap :=
  let headName := resolveNameAllTime heads t
  let m' := if hasKey m headName then m else m ++ [(headName, ⟨0, 0, t.type⟩)]
  if t.type == "income" then
    updateEntry m' headName (fun e => { e with income := e.income + t.amount })
  else
    updateEntry m' headName (fun e => { e with expense := e.expense + t.amount })

/-- The all-time aggregator `getPLSummary` of `AllTimeSummary.jsx`: fold
all transactions into an unseeded map, then emit one row per entry with
the label `summary[headName].income > 0 ? 'Income' : 'Expense'`; no
zero-filter and no sort. -/
def getPLSummary (allTransactions : List Transaction) (heads : List Head) :
    List AllTimeRow :=
  let summary := allTransactions.foldl (applyTransactionAllTime heads) []
  summary.map (fun p =>
    ⟨p.1, if 0 < p.2.income then "Income" else "Expense",
      p.2.income, p.2.expense, p.2.income - p.2.expense⟩)

/-- Leap-year test of the Gregorian calendar. -/
def isLeapYear (y : Nat) : Bool :=
  (y % 4 == 0 && y % 100 != 0) || y % 400 == 0

/-- Number of days of month `m` (1-based) of year `y`. -/
def daysInMonth (y m : Nat) : Nat :=
  if m == 2 then (if isLeapYear y then 29 else 28)
  else if m == 4 || m == 6 || m == 9 || m == 11 then 30
  else 31

/-- Days of year `y` preceding the first day of month `m` (1-based). -/
def daysBeforeMonth (y m : Nat) : Nat :=
  (List.range (m - 1)).foldl (fun acc i => acc + daysInMonth y (i + 1)) 0

/-- Days strictly before January 1 of year `y`, counted from year 1. -/
def daysBeforeYear (y : Nat) : Nat :=
  365 * (y - 1) + (y - 1) / 4 + (y - 1) / 400 - (y - 1) / 100

/-- Civil day number of the calendar date `y-m-d`: consecutive calendar
days map to consecutive numbers, so advancing a date by one calendar day
(JS `d.setDate(d.getDate() + 1)`) is `+ 1` here. -/
def toDayNumber (y m d : Nat) : Nat :=
  daysBeforeYear y + daysBeforeMonth y m + (d - 1)

/-- Split a character list on `'-'` separators (the semantics of
`s.split('-')` / `splitOn "-"` for a one-character separator). -/
def splitDash (cs : List Char) (acc : List Char) : List (List Char) :=
  match cs with
  | [] => [acc.reverse]
  | c :: rest =>
    if c == '-' then acc.reverse :: splitDash rest []
    else splitDash rest (c :: acc)

/-- Digit characters to a number (`none` on the empty list or a
non-digit character). -/
def parseNatDigits (cs : List Char) : Option Nat :=
  if cs.length > 0 && cs.all (fun c => c.isDigit) then
    some (cs.foldl (fun n c => 10 * n + (c.toNat - 48)) 0)
  else none

/-- Model of JS `new Date(s)` on the `YYYY-MM-DD` strings this app
stores (the ISO date-only format, parsed by JS at UTC midnight): the
civil day number on success, `none` for an invalid `Date` (`NaN`),
including out-of-range month or day components. -/
def parseDate (s : String) : Option Nat :=
  match splitDash s.data [] with
  | [ys, ms, ds] =>
    if ys.length == 4 && ms.length == 2 && ds.length == 2 then
      match parseNatDigits ys, parseNatDigits ms, parseNatDigits ds with
      | some y, some m, some d =>
        if 1 ≤ m && m ≤ 12 && 1 ≤ d && d ≤ daysInMonth y m then
          some (toDayNumber y m d)
        else none
      | _, _, _ => none
    else none
  | _ => none

/-- The date-range filter of `App.jsx`:
`const start = new Date(startDate); const end = new Date(endDate);
end.setDate(end.getDate() + 1);
allTransactions.filter(t => { const tDate = new Date(t.date);
return t.date && !isNaN(tDate) && tDate >= start && tDate < end; })`.
A missing date is a falsy (empty) `date` field; an unparsable date, and
likewise an unparsable bound, is `none`, and every comparison against it
is false, as with `NaN`. -/
def filteredTransactions (allTransactions : List Transaction)
    (startDate endDate : String) : List Transaction :=
  let start := parseDate startDate
  let endD := (parseDate endDate).map (· + 1)
  allTransactions.filter fun t =>
    decide (t.date ≠ "") &&
      match parseDate t.date, start, endD with
      | some d, some s, some e => decide (s ≤ d) && decide (d < e)
      | _, _, _ => false

/-- A uniform flat record handed to the CSV serializer: keys in
insertion order; a value of `none` models a `null` field, and a key
absent from the list reads as `undefined` — both serialize identically. -/
abbrev Record := List (String × Option String)

/-- JS `row[key]`: `none` both for an absent key (`undefined`) and for a
stored `null`. -/
def getVal (row : Record) (k : String) : Option String :=
  (row.find? (fun p => p.1 == k)).bind (·.2)

/-- Escaping `cell.toString().replace(/"/g, '""')`: double every double-quote
character (cell values are modelled post-`toString`, as strings). -/
def escapeQuotes (s : String) : String :=
  String.mk (s.data.foldr (fun c acc => if c == '"' then '"' :: '"' :: acc else c :: acc) [])

/-- The test `cell.search(/("|,|\n)/g) >= 0`: the (escaped) cell contains a
double quote, comma or newline. -/
def cellNeedsQuoting (s : String) : Bool :=
  s.data.any (fun c => c == '"' || c == ',' || c == '\n')

/-- One CSV cell: empty for `null`/`undefined`, else the stringified
value with quotes doubled, wrapped in double quotes when the escaped
text contains a quote, comma or newline. -/
def renderCell (v : Option String) : String :=
  let cell := escapeQuotes (v.getD "")
  if cellNeedsQuoting cell then "\"" ++ cell ++ "\"" else cell

/-- One CSV data line: the cells of `row` at `keys`, comma-joined. -/
def renderRow (keys : List String) (row : Record) : String :=
  String.intercalate "," (keys.map (fun k => renderCell (getVal row k)))

/-- The CSV serializer `convertArrayOfObjectsToCSV(array)` of `App.jsx`
and the report component: empty input yields `""`; otherwise the header
line is `Object.keys(array[0])` comma-joined, followed by one
newline-separated line per record. -/
def convertArrayOfObjectsToCSV (array : List Record) : String :=
  match array with
  | [] => ""
  | r₁ :: _ =>
    let keys := r₁.map (·.1)
    let csvHeader := String.intercalate "," keys ++ "\n"
    let csvRows := String.intercalate "\n" (array.map (renderRow keys))
    csvHeader ++ csvRows

/-! ## Observation functions on summary maps

These are not part of the program; they read a summary map off for the
proofs: the key list, and the income / expense / type stored at a key
(zero income and expense for an absent key, matching what the aggregator
would accumulate there from nothing). -/

/-- The keys of a summary map, in order. -/
def keysOf (m : SummaryMap) : List String :=
  m.map (·.1)

/-- The income total stored at key `k` (`0` when absent). -/
def incomeOf (m : SummaryMap) (k : String) : Int :=
  ((m.find? (fun p => p.1 == k)).map (·.2.income)).getD 0

/-- The expense total stored at key `k` (`0` when absent). -/
def expenseOf (m : SummaryMap) (k : String) : Int :=
  ((m.find? (fun p => p.1 == k)).map (·.2.expense)).getD 0

/-- The type label stored at key `k`. -/
def typeOf (m : SummaryMap) (k : String) : Option String :=
  (m.find? (fun p => p.1 == k)).map (·.2.type)

/-- The income the transaction `t` contributes to the bucket `k`. -/
def incContrib (headList : List Head) (t : Transaction) (k : String) : Int :=
  if resolveName headList t = k ∧ t.type = "income" then t.amount else 0

/-- The expense the transaction `t` contributes to the bucket `k`. -/
def expContrib (headList : List Head) (t : Transaction) (k : String) : Int :=
  if resolveName headList t = k ∧ t.type ≠ "income" then t.amount else 0

/-- Total income the transaction list contributes to the bucket `k`. -/
def incSum (headList : List Head) (ts : List Transaction) (k : String) : Int :=
  (ts.map (fun t => incContrib headList t k)).sum

/-- Total expense the transaction list contributes to the bucket `k`. -/
def expSum (headList : List Head) (ts : List Transaction) (k : String) : Int :=
  (ts.map (fun t => expContrib headList t k)).sum

/-- Sum of income plus expense over all entries of a summary map. -/
def sumEntries (m : SummaryMap) : Int :=
  (m.map (fun p => p.2.income + p.2.expense)).sum

/-- The last head of `H` bearing the name `n` — the one whose seeding
assignment `summary[h.name] = ...` lands last. -/
def lastNamed (H : List Head) (n : String) : Option Head :=
  match H with
  | [] => none
  | h :: rest =>
    match lastNamed rest n with
    | some h' => some h'
    | none => if h.name == n then some h else none

/-! ## Basic lemmas about the map operations -/

theorem hasKey_iff_exists (m : SummaryMap) (k : String) :
    hasKey m k = true ↔ ∃ p ∈ m, p.1 = k := by
  simp [hasKey, List.any_eq_true]

theorem hasKey_eq_false_iff (m : SummaryMap) (k : String) :
    hasKey m k = false ↔ ∀ p ∈ m, p.1 ≠ k := by
  rw [← Bool.not_eq_true, hasKey_iff_exists]
  push_neg
  rfl

theorem find?_eq_none_of_not_hasKey (m : SummaryMap) (k : String)
    (h : hasKey m k = false) : m.find? (fun p => p.1 == k) = none := by
  rw [List.find?_eq_none]
  intro p hp
  simp only [beq_iff_eq]
  exact (hasKey_eq_false_iff m k).mp h p hp

theorem hasKey_of_find?_eq_some (m : SummaryMap) (k : String) (p : String × SummaryEntry)
    (h : m.find? (fun q => q.1 == k) = some p) : hasKey m k = true := by
  have hpk := List.find?_some h
  exact (hasKey_iff_exists m k).mpr ⟨p, List.mem_of_find?_eq_some h, by simpa using hpk⟩

theorem exists_find?_of_hasKey (m : SummaryMap) (k : String) (h : hasKey m k = true) :
    ∃ e, m.find? (fun p => p.1 == k) = some (k, e) := by
  induction m with
  | nil => simp [hasKey] at h
  | cons p rest ih =>
    by_cases hpk : p.1 = k
    · refine ⟨p.2, ?_⟩
      rw [← hpk]
      simp [List.find?_cons_of_pos]
    · have h' : hasKey rest k = true := by
        simpa [hasKey, hpk] using h
      rcases ih h' with ⟨e, he⟩
      exact ⟨e, by simpa [List.find?_cons_of_neg, hpk] using he⟩

theorem hasKey_iff_mem_keysOf (m : SummaryMap) (k : String) :
    hasKey m k = true ↔ k ∈ keysOf m := by
  rw [hasKey_iff_exists]
  constructor
  · rintro ⟨p, hp, rfl⟩
    exact List.mem_map_of_mem _ hp
  · intro hk
    rcases List.mem_map.mp hk with ⟨p, hp, rfl⟩
    exact ⟨p, hp, rfl⟩

theorem find?_setEntry_self (m : SummaryMap) (k : String) (e : SummaryEntry) :
    (setEntry m k e).find? (fun p => p.1 == k) = some (k, e) := by
  induction m with
  | nil => simp [setEntry]
  | cons p rest ih =>
    by_cases hpk : p.1 = k
    · simp [setEntry, hpk]
    · simpa [setEntry, hpk] using ih

theorem find?_setEntry_other (m : SummaryMap) (k k' : String) (e : SummaryEntry)
    (hne : k' ≠ k) :
    (setEntry m k e).find? (fun p => p.1 == k') = m.find? (fun p => p.1 == k') := by
  induction m with
  | nil => simp [setEntry, Ne.symm hne]
  | cons p rest ih =>
    by_cases hpk : p.1 = k
    · simp [setEntry, hpk, Ne.symm hne]
    · by_cases hpk' : p.1 = k'
      · simp [setEntry, hpk, hpk', hne]
      · simpa [setEntry, hpk, hpk'] using ih

theorem keysOf_setEntry (m : SummaryMap) (k : String) (e : SummaryEntry) :
    keysOf (setEntry m k e) = if hasKey m k then keysOf m else keysOf m ++ [k] := by
  induction m with
  | nil => simp [setEntry, keysOf, hasKey]
  | cons p rest ih =>
    by_cases hpk : p.1 = k
    · have h1 : hasKey (p :: rest) k = true := by simp [hasKey, hpk]
      simp [setEntry, keysOf, hpk, h1]
    · have h1 : hasKey (p :: rest) k = hasKey rest k := by simp [hasKey, hpk]
      rw [h1]
      by_cases hr : hasKey rest k = true
      · simp [hr, keysOf] at ih
        simp [setEntry, keysOf, hpk, hr, ih]
      · simp only [Bool.not_eq_true] at hr
        simp [hr, keysOf] at ih
        simp [setEntry, keysOf, hpk, hr, ih]

theorem find?_updateEntry_self (m : SummaryMap) (k : String) (f : SummaryEntry → SummaryEntry) :
    (updateEntry m k f).find? (fun p => p.1 == k)
      = (m.find? (fun p => p.1 == k)).map (fun p => (p.1, f p.2)) := by
  induction m with
  | nil => simp [updateEntry]
  | cons p rest ih =>
    by_cases hpk : p.1 = k
    · simp [updateEntry, hpk]
    · simpa [updateEntry, hpk] using ih

theorem find?_updateEntry_other (m : SummaryMap) (k k' : String)
    (f : SummaryEntry → SummaryEntry) (hne : k' ≠ k) :
    (updateEntry m k f).find? (fun p => p.1 == k') = m.find? (fun p => p.1 == k') := by
  induction m with
  | nil => simp [updateEntry]
  | cons p rest ih =>
    by_cases hpk : p.1 = k
    · simp [updateEntry, hpk, Ne.symm hne]
    · by_cases hpk' : p.1 = k'
      · simp [updateEntry, hpk, hpk', hne]
      · simpa [updateEntry, hpk, hpk'] using ih

theorem keysOf_updateEntry (m : SummaryMap) (k : String) (f : SummaryEntry → SummaryEntry) :
    keysOf (updateEntry m k f) = keysOf m := by
  induction m with
  | nil => rfl
  | cons p rest ih =>
    by_cases hpk : p.1 = k
    · simp [updateEntry, keysOf, hpk]
    · simp only [updateEntry, keysOf] at ih ⊢
      simp [hpk, ih]

theorem find?_append_single_self (m : SummaryMap) (k : String) (e : SummaryEntry)
    (h : hasKey m k = false) :
    (m ++ [(k, e)]).find? (fun p => p.1 == k) = some (k, e) := by
  induction m with
  | nil => simp
  | cons p rest ih =>
    have hpk : p.1 ≠ k := (hasKey_eq_false_iff _ _).mp h p (List.mem_cons_self _ _)
    have h' : hasKey rest k = false := by
      cases hk : hasKey rest k
      · rfl
      · exfalso
        rcases (hasKey_iff_exists rest k).mp hk with ⟨q, hq, hqk⟩
        exact (hasKey_eq_false_iff _ _).mp h q (List.mem_cons_of_mem p hq) hqk
    simpa [hpk] using ih h'

theorem find?_append_single_other (m : SummaryMap) (k k' : String) (e : SummaryEntry)
    (hne : k' ≠ k) :
    (m ++ [(k, e)]).find? (fun p => p.1 == k') = m.find? (fun p => p.1 == k') := by
  induction m with
  | nil => simp [Ne.symm hne]
  | cons p rest ih =>
    by_cases hpk : p.1 = k'
    · simp [hpk]
    · simpa [hpk] using ih

/-! ## Seeding lemmas -/

theorem find?_seed_go (H : List Head) (m : SummaryMap) (n : String) :
    (H.foldl (fun summary h => setEntry summary h.name ⟨0, 0, h.headType⟩) m).find?
        (fun p => p.1 == n)
      = match lastNamed H n with
        | some h => some (n, ⟨0, 0, h.headType⟩)
        | none => m.find? (fun p => p.1 == n) := by
  induction H generalizing m with
  | nil => simp [lastNamed]
  | cons h rest ih =>
    rw [List.foldl_cons, ih]
    cases hrest : lastNamed rest n with
    | some h' => simp [lastNamed, hrest]
    | none =>
      by_cases hn : h.name = n
      · simp only [lastNamed, hrest, hn, beq_self_eq_true, if_pos]
        rw [← hn, find?_setEntry_self, hn]
      · simp only [lastNamed, hrest]
        rw [if_neg (by simpa using hn), find?_setEntry_other _ _ _ _ (fun hc => hn hc.symm)]

theorem find?_seedHeads (H : List Head) (n : String) :
    (seedHeads H).find? (fun p => p.1 == n)
      = (lastNamed H n).map (fun h => (n, ⟨0, 0, h.headType⟩)) := by
  rw [seedHeads, find?_seed_go]
  cases lastNamed H n <;> simp

theorem hasKey_seedHeads_of_mem (H : List Head) (h : Head) (hmem : h ∈ H) :
    hasKey (seedHeads H) h.name = true := by
  have hlast : ∃ h', lastNamed H h.name = some h' := by
    induction H with
    | nil => cases hmem
    | cons h0 rest ih =>
      cases hrest : lastNamed rest h.name with
      | some h' => exact ⟨h', by simp [lastNamed, hrest]⟩
      | none =>
        rcases List.mem_cons.mp hmem with heq | hh
        · exact ⟨h0, by simp [lastNamed, hrest, ← heq]⟩
        · rcases ih hh with ⟨h', hh'⟩
          rw [hh'] at hrest
          cases hrest
  rcases hlast with ⟨h', hh'⟩
  exact hasKey_of_find?_eq_some _ _ _ (by rw [find?_seedHeads, hh']; rfl)

theorem incomeOf_seedHeads (H : List Head) (n : String) :
    incomeOf (seedHeads H) n = 0 := by
  rw [incomeOf, find?_seedHeads]
  cases lastNamed H n <;> rfl

theorem expenseOf_seedHeads (H : List Head) (n : String) :
    expenseOf (seedHeads H) n = 0 := by
  rw [expenseOf, find?_seedHeads]
  cases lastNamed H n <;> rfl

theorem typeOf_seedHeads (H : List Head) (n : String) :
    typeOf (seedHeads H) n = (lastNamed H n).map (·.headType) := by
  rw [typeOf, find?_seedHeads]
  cases lastNamed H n <;> rfl

theorem keysOf_seed_go_nodup (H : List Head) (m : SummaryMap)
    (hm : (keysOf m).Nodup) :
    (keysOf (H.foldl (fun summary h => setEntry summary h.name ⟨0, 0, h.headType⟩) m)).Nodup := by
  induction H generalizing m with
  | nil => exact hm
  | cons h rest ih =>
    rw [List.foldl_cons]
    refine ih _ ?_
    rw [keysOf_setEntry]
    by_cases hk : hasKey m h.name = true
    · simpa [hk] using hm
    · simp only [Bool.not_eq_true] at hk
      have : h.name ∉ keysOf m := fun hc =>
        by simp [(hasKey_iff_mem_keysOf m h.name).mpr hc] at hk
      simp [hk, List.nodup_append, hm, this]

theorem keysOf_seedHeads_nodup (H : List Head) : (keysOf (seedHeads H)).Nodup :=
  keysOf_seed_go_nodup H [] (by simp [keysOf])

theorem sumEntries_seed_go (H : List Head) (m : SummaryMap)
    (hm : ∀ p ∈ m, p.2.income = 0 ∧ p.2.expense = 0) :
    ∀ p ∈ H.foldl (fun summary h => setEntry summary h.name ⟨0, 0, h.headType⟩) m,
      p.2.income = 0 ∧ p.2.expense = 0 := by
  induction H generalizing m with
  | nil => exact hm
  | cons h rest ih =>
    rw [List.foldl_cons]
    refine ih _ ?_
    intro p hp
    clear ih
    induction m with
    | nil =>
      simp [setEntry] at hp
      simp [hp]
    | cons q rest2 ih2 =>
      by_cases hq : q.1 = h.name
      · simp only [setEntry, hq, beq_self_eq_true, if_pos] at hp
        rcases List.mem_cons.mp hp with rfl | hp2
        · exact ⟨rfl, rfl⟩
        · exact hm _ (List.mem_cons_of_mem q hp2)
      · simp only [setEntry, beq_iff_eq, if_neg hq] at hp
        rcases List.mem_cons.mp hp with rfl | hp2
        · exact hm _ (List.mem_cons_self _ _)
        · exact ih2 (fun r hr => hm r (List.mem_cons_of_mem q hr)) hp2

theorem seedHeads_all_zero (H : List Head) :
    ∀ p ∈ seedHeads H, p.2.income = 0 ∧ p.2.expense = 0 :=
  sumEntries_seed_go H [] (by simp)

theorem sumEntries_eq_zero (m : SummaryMap)
    (hm : ∀ p ∈ m, p.2.income = 0 ∧ p.2.expense = 0) : sumEntries m = 0 := by
  induction m with
  | nil => rfl
  | cons p rest ih =>
    have hp := hm p (List.mem_cons_self _ _)
    simp only [sumEntries, List.map_cons, List.sum_cons, hp.1, hp.2]
    simpa [sumEntries] using ih (fun q hq => hm q (List.mem_cons_of_mem p hq))

theorem sumEntries_seedHeads (H : List Head) : sumEntries (seedHeads H) = 0 :=
  sumEntries_eq_zero _ (seedHeads_all_zero H)

/-! ## Effect of a single transaction on the summary map -/

theorem incomeOf_updateEntry_addIncome (m : SummaryMap) (k : String) (a : Int)
    (hk : hasKey m k = true) :
    incomeOf (updateEntry m k (fun e => { e with income := e.income + a })) k
      = incomeOf m k + a := by
  rcases exists_find?_of_hasKey m k hk with ⟨e, he⟩
  rw [incomeOf, find?_updateEntry_self, he, incomeOf, he]
  rfl

theorem incomeOf_updateEntry_of_income_eq (m : SummaryMap) (k : String)
    (f : SummaryEntry → SummaryEntry) (hf : ∀ e, (f e).income = e.income) (k' : String) :
    incomeOf (updateEntry m k f) k' = incomeOf m k' := by
  by_cases hkk : k' = k
  · subst hkk
    rw [incomeOf, find?_updateEntry_self, incomeOf]
    cases m.find? (fun p => p.1 == k') with
    | none => rfl
    | some p => simp [hf]
  · rw [incomeOf, find?_updateEntry_other _ _ _ _ hkk, incomeOf]

theorem incomeOf_updateEntry_other (m : SummaryMap) (k k' : String)
    (f : SummaryEntry → SummaryEntry) (hne : k' ≠ k) :
    incomeOf (updateEntry m k f) k' = incomeOf m k' := by
  rw [incomeOf, find?_updateEntry_other _ _ _ _ hne, incomeOf]

theorem expenseOf_updateEntry_addExpense (m : SummaryMap) (k : String) (a : Int)
    (hk : hasKey m k = true) :
    expenseOf (updateEntry m k (fun e => { e with expense := e.expense + a })) k
      = expenseOf m k + a := by
  rcases exists_find?_of_hasKey m k hk with ⟨e, he⟩
  rw [expenseOf, find?_updateEntry_self, he, expenseOf, he]
  rfl

theorem expenseOf_updateEntry_of_expense_eq (m : SummaryMap) (k : String)
    (f : SummaryEntry → SummaryEntry) (hf : ∀ e, (f e).expense = e.expense) (k' : String) :
    expenseOf (updateEntry m k f) k' = expenseOf m k' := by
  by_cases hkk : k' = k
  · subst hkk
    rw [expenseOf, find?_updateEntry_self, expenseOf]
    cases m.find? (fun p => p.1 == k') with
    | none => rfl
    | some p => simp [hf]
  · rw [expenseOf, find?_updateEntry_other _ _ _ _ hkk, expenseOf]

theorem expenseOf_updateEntry_other (m : SummaryMap) (k k' : String)
    (f : SummaryEntry → SummaryEntry) (hne : k' ≠ k) :
    expenseOf (updateEntry m k f) k' = expenseOf m k' := by
  rw [expenseOf, find?_updateEntry_other _ _ _ _ hne, expenseOf]

theorem typeOf_updateEntry_of_type_eq (m : SummaryMap) (k : String)
    (f : SummaryEntry → SummaryEntry) (hf : ∀ e, (f e).type = e.type) (k' : String) :
    typeOf (updateEntry m k f) k' = typeOf m k' := by
  by_cases hkk : k' = k
  · subst hkk
    rw [typeOf, find?_updateEntry_self, typeOf]
    cases m.find? (fun p => p.1 == k') with
    | none => rfl
    | some p => simp [hf]
  · rw [typeOf, find?_updateEntry_other _ _ _ _ hkk, typeOf]

theorem hasKey_updateEntry (m : SummaryMap) (k : String)
    (f : SummaryEntry → SummaryEntry) (k' : String) :
    hasKey (updateEntry m k f) k' = hasKey m k' := by
  cases h : hasKey m k'
  · rw [Bool.eq_false_iff]
    intro hc
    rw [hasKey_iff_mem_keysOf, keysOf_updateEntry, ← hasKey_iff_mem_keysOf, h] at hc
    cases hc
  · rw [hasKey_iff_mem_keysOf, keysOf_updateEntry, ← hasKey_iff_mem_keysOf, h]

theorem sumEntries_updateEntry_addIncome (m : SummaryMap) (k : String) (a : Int)
    (hk : hasKey m k = true) :
    sumEntries (updateEntry m k (fun e => { e with income := e.income + a }))
      = sumEntries m + a := by
  induction m with
  | nil => simp [hasKey] at hk
  | cons p rest ih =>
    by_cases hpk : p.1 = k
    · simp only [updateEntry, hpk, beq_self_eq_true, if_pos, sumEntries, List.map_cons,
        List.sum_cons]
      simp [sumEntries] at *
      omega
    · have hk' : hasKey rest k = true := by simpa [hasKey, hpk] using hk
      simp only [updateEntry, beq_iff_eq, if_neg hpk, sumEntries, List.map_cons, List.sum_cons]
      have := ih hk'
      simp [sumEntries] at this
      simp [this]
      omega

theorem sumEntries_updateEntry_addExpense (m : SummaryMap) (k : String) (a : Int)
    (hk : hasKey m k = true) :
    sumEntries (updateEntry m k (fun e => { e with expense := e.expense + a }))
      = sumEntries m + a := by
  induction m with
  | nil => simp [hasKey] at hk
  | cons p rest ih =>
    by_cases hpk : p.1 = k
    · simp only [updateEntry, hpk, beq_self_eq_true, if_pos, sumEntries, List.map_cons,
        List.sum_cons]
      simp [sumEntries] at *
      omega
    · have hk' : hasKey rest k = true := by simpa [hasKey, hpk] using hk
      simp only [updateEntry, beq_iff_eq, if_neg hpk, sumEntries, List.map_cons, List.sum_cons]
      have := ih hk'
      simp [sumEntries] at this
      simp [this]
      omega

/-- The conditional insert step of the transaction loop. -/
def insertStep (m : SummaryMap) (n : String) (τ : String) : SummaryMap :=
  if hasKey m n then m else m ++ [(n, ⟨0, 0, τ⟩)]

theorem applyTransaction_eq (H : List Head) (m : SummaryMap) (t : Transaction) :
    applyTransaction H m t =
      if t.type == "income" then
        updateEntry (insertStep m (resolveName H t) t.type) (resolveName H t)
          (fun e => { e with income := e.income + t.amount })
      else
        updateEntry (insertStep m (resolveName H t) t.type) (resolveName H t)
          (fun e => { e with expense := e.expense + t.amount }) := rfl

theorem hasKey_insertStep_self (m : SummaryMap) (n τ : String) :
    hasKey (insertStep m n τ) n = true := by
  rw [insertStep]
  by_cases hk : hasKey m n = true
  · rw [if_pos hk]
    exact hk
  · simp only [Bool.not_eq_true] at hk
    rw [if_neg (by simp [hk])]
    simp [hasKey, List.any_append]

theorem hasKey_insertStep (m : SummaryMap) (n τ k : String) :
    hasKey (insertStep m n τ) k = (hasKey m k || k == n) := by
  rw [insertStep]
  by_cases hk : hasKey m n = true
  · rw [if_pos hk]
    by_cases hkn : k = n
    · subst hkn
      simp [hk]
    · simp [hkn]
  · simp only [Bool.not_eq_true] at hk
    rw [if_neg (by simp [hk])]
    simp only [hasKey, List.any_append]
    rcases eq_or_ne k n with rfl | hkn
    · simp [hasKey]
    · have h1 : (n == k) = false := by simp [Ne.symm hkn]
      have h2 : (k == n) = false := by simp [hkn]
      simp [hasKey, h1, h2]

theorem incomeOf_insertStep (m : SummaryMap) (n τ k : String) :
    incomeOf (insertStep m n τ) k = incomeOf m k := by
  rw [insertStep]
  by_cases hk : hasKey m n = true
  · rw [if_pos hk]
  · simp only [Bool.not_eq_true] at hk
    rw [if_neg (by simp [hk])]
    rcases eq_or_ne k n with rfl | hkn
    · rw [incomeOf, find?_append_single_self m k _ hk, incomeOf,
        find?_eq_none_of_not_hasKey m k hk]
      rfl
    · rw [incomeOf, find?_append_single_other m n k _ hkn, incomeOf]

theorem expenseOf_insertStep (m : SummaryMap) (n τ k : String) :
    expenseOf (insertStep m n τ) k = expenseOf m k := by
  rw [insertStep]
  by_cases hk : hasKey m n = true
  · rw [if_pos hk]
  · simp only [Bool.not_eq_true] at hk
    rw [if_neg (by simp [hk])]
    rcases eq_or_ne k n with rfl | hkn
    · rw [expenseOf, find?_append_single_self m k _ hk, expenseOf,
        find?_eq_none_of_not_hasKey m k hk]
      rfl
    · rw [expenseOf, find?_append_single_other m n k _ hkn, expenseOf]

theorem typeOf_insertStep_of_hasKey (m : SummaryMap) (n τ k : String)
    (hk : hasKey m k = true) :
    typeOf (insertStep m n τ) k = typeOf m k := by
  rw [insertStep]
  by_cases hn : hasKey m n = true
  · rw [if_pos hn]
  · simp only [Bool.not_eq_true] at hn
    rw [if_neg (by simp [hn])]
    rcases eq_or_ne k n with rfl | hkn
    · rw [hk] at hn
      cases hn
    · rw [typeOf, find?_append_single_other m n k _ hkn, typeOf]

theorem sumEntries_insertStep (m : SummaryMap) (n τ : String) :
    sumEntries (insertStep m n τ) = sumEntries m := by
  rw [insertStep]
  by_cases hk : hasKey m n = true
  · rw [if_pos hk]
  · simp only [Bool.not_eq_true] at hk
    rw [if_neg (by simp [hk])]
    simp [sumEntries]

theorem keysOf_insertStep (m : SummaryMap) (n τ : String) :
    keysOf (insertStep m n τ) = if hasKey m n then keysOf m else keysOf m ++ [n] := by
  rw [insertStep]
  by_cases hk : hasKey m n = true
  · rw [if_pos hk, if_pos hk]
  · simp only [Bool.not_eq_true] at hk
    rw [if_neg (by simp [hk]), if_neg (by simp [hk])]
    simp [keysOf]

theorem incomeOf_applyTransaction (H : List Head) (m : SummaryMap) (t : Transaction)
    (k : String) :
    incomeOf (applyTransaction H m t) k = incomeOf m k + incContrib H t k := by
  rw [applyTransaction_eq]
  by_cases ht : t.type = "income"
  · rw [if_pos (by simp [ht])]
    rcases eq_or_ne k (resolveName H t) with heq | hkn
    · rw [heq, incomeOf_updateEntry_addIncome _ _ _ (hasKey_insertStep_self m _ t.type),
        incomeOf_insertStep, incContrib, if_pos ⟨rfl, ht⟩]
    · rw [incomeOf_updateEntry_other _ _ _ _ hkn, incomeOf_insertStep, incContrib,
        if_neg (fun hc => hkn hc.1.symm)]
      omega
  · rw [if_neg (by simp [ht])]
    rw [incomeOf_updateEntry_of_income_eq _ _
        (fun e => { e with expense := e.expense + t.amount }) (fun e => rfl) k,
      incomeOf_insertStep, incContrib, if_neg (fun hc => ht hc.2)]
    omega

theorem expenseOf_applyTransaction (H : List Head) (m : SummaryMap) (t : Transaction)
    (k : String) :
    expenseOf (applyTransaction H m t) k = expenseOf m k + expContrib H t k := by
  rw [applyTransaction_eq]
  by_cases ht : t.type = "income"
  · rw [if_pos (by simp [ht])]
    rw [expenseOf_updateEntry_of_expense_eq _ _
        (fun e => { e with income := e.income + t.amount }) (fun e => rfl) k,
      expenseOf_insertStep, expContrib, if_neg (fun hc => hc.2 ht)]
    omega
  · rw [if_neg (by simp [ht])]
    rcases eq_or_ne k (resolveName H t) with heq | hkn
    · rw [heq, expenseOf_updateEntry_addExpense _ _ _ (hasKey_insertStep_self m _ t.type),
        expenseOf_insertStep, expContrib, if_pos ⟨rfl, ht⟩]
    · rw [expenseOf_updateEntry_other _ _ _ _ hkn, expenseOf_insertStep, expContrib,
        if_neg (fun hc => hkn hc.1.symm)]
      omega

theorem typeOf_applyTransaction_of_hasKey (H : List Head) (m : SummaryMap)
    (t : Transaction) (k : String) (hk : hasKey m k = true) :
    typeOf (applyTransaction H m t) k = typeOf m k := by
  rw [applyTransaction_eq]
  by_cases ht : t.type = "income"
  · rw [if_pos (by simp [ht]),
      typeOf_updateEntry_of_type_eq _ _
        (fun e => { e with income := e.income + t.amount }) (fun e => rfl) k,
      typeOf_insertStep_of_hasKey _ _ _ _ hk]
  · rw [if_neg (by simp [ht]),
      typeOf_updateEntry_of_type_eq _ _
        (fun e => { e with expense := e.expense + t.amount }) (fun e => rfl) k,
      typeOf_insertStep_of_hasKey _ _ _ _ hk]

theorem hasKey_applyTransaction (H : List Head) (m : SummaryMap) (t : Transaction)
    (k : String) :
    hasKey (applyTransaction H m t) k = (hasKey m k || k == resolveName H t) := by
  rw [applyTransaction_eq]
  by_cases ht : t.type = "income"
  · rw [if_pos (by simp [ht]), hasKey_updateEntry, hasKey_insertStep]
  · rw [if_neg (by simp [ht]), hasKey_updateEntry, hasKey_insertStep]

theorem sumEntries_applyTransaction (H : List Head) (m : SummaryMap) (t : Transaction) :
    sumEntries (applyTransaction H m t) = sumEntries m + t.amount := by
  rw [applyTransaction_eq]
  by_cases ht : t.type = "income"
  · rw [if_pos (by simp [ht]),
      sumEntries_updateEntry_addIncome _ _ _ (hasKey_insertStep_self m _ t.type),
      sumEntries_insertStep]
  · rw [if_neg (by simp [ht]),
      sumEntries_updateEntry_addExpense _ _ _ (hasKey_insertStep_self m _ t.type),
      sumEntries_insertStep]

theorem keysOf_applyTransaction (H : List Head) (m : SummaryMap) (t : Transaction) :
    keysOf (applyTransaction H m t)
      = if hasKey m (resolveName H t) then keysOf m
        else keysOf m ++ [resolveName H t] := by
  rw [applyTransaction_eq]
  by_cases ht : t.type = "income"
  · rw [if_pos (by simp [ht]), keysOf_updateEntry, keysOf_insertStep]
  · rw [if_neg (by simp [ht]), keysOf_updateEntry, keysOf_insertStep]

theorem keysOf_applyTransaction_nodup (H : List Head) (m : SummaryMap) (t : Transaction)
    (hm : (keysOf m).Nodup) : (keysOf (applyTransaction H m t)).Nodup := by
  rw [keysOf_applyTransaction]
  by_cases hk : hasKey m (resolveName H t) = true
  · simpa [hk] using hm
  · simp only [Bool.not_eq_true] at hk
    have : resolveName H t ∉ keysOf m := fun hc =>
      by simp [(hasKey_iff_mem_keysOf m _).mpr hc] at hk
    simp [hk, List.nodup_append, hm, this]

/-! ## Effect of the whole transaction loop -/

theorem processTransactions_nil (H : List Head) (m : SummaryMap) :
    processTransactions H m [] = m := rfl

theorem processTransactions_cons (H : List Head) (m : SummaryMap) (t : Transaction)
    (ts : List Transaction) :
    processTransactions H m (t :: ts) = processTransactions H (applyTransaction H m t) ts := rfl

theorem incSum_cons (H : List Head) (t : Transaction) (ts : List Transaction) (k : String) :
    incSum H (t :: ts) k = incContrib H t k + incSum H ts k := by
  simp [incSum]

theorem expSum_cons (H : List Head) (t : Transaction) (ts : List Transaction) (k : String) :
    expSum H (t :: ts) k = expContrib H t k + expSum H ts k := by
  simp [expSum]

theorem incomeOf_processTransactions (H : List Head) (ts : List Transaction) :
    ∀ (m : SummaryMap) (k : String),
      incomeOf (processTransactions H m ts) k = incomeOf m k + incSum H ts k := by
  induction ts with
  | nil => intro m k; simp [processTransactions_nil, incSum]
  | cons t ts ih =>
    intro m k
    rw [processTransactions_cons, ih, incomeOf_applyTransaction, incSum_cons]
    omega

theorem expenseOf_processTransactions (H : List Head) (ts : List Transaction) :
    ∀ (m : SummaryMap) (k : String),
      expenseOf (processTransactions H m ts) k = expenseOf m k + expSum H ts k := by
  induction ts with
  | nil => intro m k; simp [processTransactions_nil, expSum]
  | cons t ts ih =>
    intro m k
    rw [processTransactions_cons, ih, expenseOf_applyTransaction, expSum_cons]
    omega

theorem typeOf_processTransactions (H : List Head) (ts : List Transaction) :
    ∀ (m : SummaryMap) (k : String), hasKey m k = true →
      typeOf (processTransactions H m ts) k = typeOf m k := by
  induction ts with
  | nil => intro m k _; rw [processTransactions_nil]
  | cons t ts ih =>
    intro m k hk
    rw [processTransactions_cons,
      ih _ _ (by rw [hasKey_applyTransaction, hk, Bool.true_or]),
      typeOf_applyTransaction_of_hasKey _ _ _ _ hk]

theorem hasKey_processTransactions (H : List Head) (ts : List Transaction) :
    ∀ (m : SummaryMap) (k : String),
      (hasKey (processTransactions H m ts) k = true
        ↔ hasKey m k = true ∨ ∃ t ∈ ts, resolveName H t = k) := by
  induction ts with
  | nil => intro m k; simp [processTransactions_nil]
  | cons t ts ih =>
    intro m k
    rw [processTransactions_cons, ih, hasKey_applyTransaction]
    constructor
    · rintro (h | h)
      · rcases Bool.or_eq_true_iff.mp h with h' | h'
        · exact Or.inl h'
        · exact Or.inr ⟨t, List.mem_cons_self _ _, (beq_iff_eq.mp h').symm⟩
      · rcases h with ⟨t', ht', hr⟩
        exact Or.inr ⟨t', List.mem_cons_of_mem t ht', hr⟩
    · rintro (h | ⟨t', ht', hr⟩)
      · exact Or.inl (by rw [h, Bool.true_or])
      · rcases List.mem_cons.mp ht' with rfl | hmem
        · exact Or.inl (by rw [Bool.or_eq_true_iff]; exact Or.inr (beq_iff_eq.mpr hr.symm))
        · exact Or.inr ⟨t', hmem, hr⟩

theorem sumEntries_processTransactions (H : List Head) (ts : List Transaction) :
    ∀ m : SummaryMap,
      sumEntries (processTransactions H m ts) = sumEntries m + (ts.map (·.amount)).sum := by
  induction ts with
  | nil => intro m; simp [processTransactions_nil]
  | cons t ts ih =>
    intro m
    rw [processTransactions_cons, ih, sumEntries_applyTransaction]
    simp
    omega

theorem keysOf_processTransactions_nodup (H : List Head) (ts : List Transaction) :
    ∀ m : SummaryMap, (keysOf m).Nodup → (keysOf (processTransactions H m ts)).Nodup := by
  induction ts with
  | nil => intro m hm; exact hm
  | cons t ts ih =>
    intro m hm
    rw [processTransactions_cons]
    exact ih _ (keysOf_applyTransaction_nodup H m t hm)

/-! ## Membership and uniqueness in a summary map with distinct keys -/

theorem find?_of_mem_nodup (m : SummaryMap) (k : String) (e : SummaryEntry)
    (hnd : (keysOf m).Nodup) (hmem : (k, e) ∈ m) :
    m.find? (fun p => p.1 == k) = some (k, e) := by
  induction m with
  | nil => cases hmem
  | cons p rest ih =>
    rcases List.mem_cons.mp hmem with heq | hmem'
    · rw [← heq]
      simp [List.find?_cons_of_pos]
    · have hpk : p.1 ≠ k := by
        intro hc
        have : k ∈ keysOf rest := List.mem_map_of_mem _ hmem'
        rw [keysOf, List.map_cons, List.nodup_cons] at hnd
        exact hnd.1 (hc ▸ this)
    
      rw [List.find?_cons_of_neg _ (by simpa using hpk)]
      exact ih (by rw [keysOf, List.map_cons, List.nodup_cons] at hnd; exact hnd.2) hmem'

theorem entry_unique_of_nodup (m : SummaryMap) (k : String) (e₁ e₂ : SummaryEntry)
    (hnd : (keysOf m).Nodup) (h₁ : (k, e₁) ∈ m) (h₂ : (k, e₂) ∈ m) : e₁ = e₂ := by
  have := find?_of_mem_nodup m k e₁ hnd h₁
  rw [find?_of_mem_nodup m k e₂ hnd h₂] at this
  cases this
  rfl

theorem incomeOf_of_mem_nodup (m : SummaryMap) (k : String) (e : SummaryEntry)
    (hnd : (keysOf m).Nodup) (hmem : (k, e) ∈ m) : incomeOf m k = e.income := by
  rw [incomeOf, find?_of_mem_nodup m k e hnd hmem]
  rfl

theorem expenseOf_of_mem_nodup (m : SummaryMap) (k : String) (e : SummaryEntry)
    (hnd : (keysOf m).Nodup) (hmem : (k, e) ∈ m) : expenseOf m k = e.expense := by
  rw [expenseOf, find?_of_mem_nodup m k e hnd hmem]
  rfl

theorem typeOf_of_mem_nodup (m : SummaryMap) (k : String) (e : SummaryEntry)
    (hnd : (keysOf m).Nodup) (hmem : (k, e) ∈ m) : typeOf m k = some e.type := by
  rw [typeOf, find?_of_mem_nodup m k e hnd hmem]
  rfl

/-! ## Structural form of the loop when every transaction resolves to a
seeded key (used for transaction-order invariance) -/

theorem map_update_id_of_not_mem (m : SummaryMap) (n : String)
    (f : SummaryEntry → SummaryEntry) (h : n ∉ keysOf m) :
    m.map (fun p => if p.1 == n then (p.1, f p.2) else p) = m := by
  induction m with
  | nil => rfl
  | cons p rest ih =>
    have hp : p.1 ≠ n := fun hc => h (hc ▸ List.mem_map_of_mem _ (List.mem_cons_self _ _))
    have hrest : n ∉ keysOf rest := fun hc => h (List.mem_cons_of_mem _ hc)
    rw [List.map_cons, if_neg (by simpa using hp), ih hrest]

theorem updateEntry_eq_map_of_nodup (m : SummaryMap) (n : String)
    (f : SummaryEntry → SummaryEntry) (hnd : (keysOf m).Nodup) :
    updateEntry m n f = m.map (fun p => if p.1 == n then (p.1, f p.2) else p) := by
  induction m with
  | nil => rfl
  | cons p rest ih =>
    rw [keysOf, List.map_cons, List.nodup_cons] at hnd
    by_cases hpk : p.1 = n
    · have : n ∉ keysOf rest := hpk ▸ hnd.1
      rw [updateEntry, if_pos (by simpa using hpk), List.map_cons,
        if_pos (by simpa using hpk), map_update_id_of_not_mem rest n f this]
    · rw [updateEntry, if_neg (by simpa using hpk), List.map_cons,
        if_neg (by simpa using hpk), ih hnd.2]

theorem processTransactions_structure (H : List Head) (ts : List Transaction) :
    ∀ m : SummaryMap, (keysOf m).Nodup →
      (∀ t ∈ ts, hasKey m (resolveName H t) = true) →
      processTransactions H m ts
        = m.map (fun p => (p.1, ⟨p.2.income + incSum H ts p.1,
            p.2.expense + expSum H ts p.1, p.2.type⟩)) := by
  induction ts with
  | nil =>
    intro m _ _
    rw [processTransactions_nil]
    have : ∀ p : String × SummaryEntry,
        (p.1, (⟨p.2.income + incSum H [] p.1, p.2.expense + expSum H [] p.1, p.2.type⟩
          : SummaryEntry)) = p := by
      intro p
      simp [incSum, expSum]
    conv_lhs => rw [← List.map_id m]
    exact List.map_congr_left (fun p _ => (this p).symm)
  | cons t ts ih =>
    intro m hnd hres
    have hresT := hres t (List.mem_cons_self _ _)
    have happ : applyTransaction H m t
        = m.map (fun p =>
            if p.1 == resolveName H t then
              (p.1, if t.type == "income" then
                  (⟨p.2.income + t.amount, p.2.expense, p.2.type⟩ : SummaryEntry)
                else ⟨p.2.income, p.2.expense + t.amount, p.2.type⟩)
            else p) := by
      rw [applyTransaction_eq, insertStep, if_pos hresT]
      by_cases htI : t.type = "income"
      · rw [if_pos (by simpa using htI),
          updateEntry_eq_map_of_nodup _ _ _ hnd]
        refine List.map_congr_left (fun p _ => ?_)
        by_cases hp : p.1 = resolveName H t
        · simp [hp, htI]
        · simp [hp]
      · rw [if_neg (by simpa using htI),
          updateEntry_eq_map_of_nodup _ _ _ hnd]
        refine List.map_congr_left (fun p _ => ?_)
        by_cases hp : p.1 = resolveName H t
        · simp [hp, htI]
        · simp [hp]
    rw [processTransactions_cons,
      ih (applyTransaction H m t)
        (keysOf_applyTransaction_nodup H m t hnd)
        (fun t' ht' => by
          rw [hasKey_applyTransaction, hres t' (List.mem_cons_of_mem t ht'), Bool.true_or]),
      happ, List.map_map]
    refine List.map_congr_left (fun p _ => ?_)
    simp only [Function.comp]
    by_cases hp : p.1 = resolveName H t
    · by_cases htI : t.type = "income"
      · simp only [hp, beq_self_eq_true, if_pos, htI, incSum_cons, expSum_cons, incContrib,
          expContrib]
        simp [hp, htI, Prod.mk.injEq, SummaryEntry.mk.injEq]
        omega
      · simp only [hp, beq_self_eq_true, if_pos, incSum_cons, expSum_cons, incContrib,
          expContrib]
        simp [hp, htI, Prod.mk.injEq, SummaryEntry.mk.injEq]
        omega
    · simp only [incSum_cons, expSum_cons, incContrib, expContrib]
      have h1 : ¬(resolveName H t = p.1 ∧ t.type = "income") := fun hc => hp hc.1.symm
      have h2 : ¬(resolveName H t = p.1 ∧ t.type ≠ "income") := fun hc => hp hc.1.symm
      simp [hp, h1, h2]

/-! ## Output-layer helper lemmas -/

theorem incSum_perm (H : List Head) (T₁ T₂ : List Transaction) (k : String)
    (hperm : T₁.Perm T₂) : incSum H T₁ k = incSum H T₂ k :=
  (hperm.map (fun t => incContrib H t k)).sum_eq

theorem expSum_perm (H : List Head) (T₁ T₂ : List Transaction) (k : String)
    (hperm : T₁.Perm T₂) : expSum H T₁ k = expSum H T₂ k :=
  (hperm.map (fun t => expContrib H t k)).sum_eq

/-- The summary map that `getPLSummaryData` builds internally. -/
def finalSummary (transactionList : List Transaction) (headList : List Head) : SummaryMap :=
  processTransactions headList (seedHeads headList) transactionList

theorem keysOf_finalSummary_nodup (T : List Transaction) (H : List Head) :
    (keysOf (finalSummary T H)).Nodup :=
  keysOf_processTransactions_nodup H T _ (keysOf_seedHeads_nodup H)

theorem getPLSummaryData_eq (T : List Transaction) (H : List Head) :
    getPLSummaryData T H
      = ((summaryRows (finalSummary T H)).filter
          (fun item => decide (0 < item.Income) || decide (0 < item.Expense))).insertionSort
        (fun a b => strLe a.Head b.Head = true) := rfl

theorem mem_getPLSummaryData_iff (T : List Transaction) (H : List Head) (r : SummaryRow) :
    r ∈ getPLSummaryData T H
      ↔ r ∈ (summaryRows (finalSummary T H)).filter
          (fun item => decide (0 < item.Income) || decide (0 < item.Expense)) := by
  rw [getPLSummaryData_eq]
  exact (List.perm_insertionSort _ _).mem_iff

theorem output_row_entry (T : List Transaction) (H : List Head) (r : SummaryRow)
    (hr : r ∈ getPLSummaryData T H) :
    ∃ p ∈ finalSummary T H,
      r = ⟨p.1, p.2.type, p.2.income, p.2.expense, p.2.income - p.2.expense⟩
        ∧ (0 < p.2.income ∨ 0 < p.2.expense) := by
  rw [mem_getPLSummaryData_iff] at hr
  rcases List.mem_filter.mp hr with ⟨hmem, hcond⟩
  rcases List.mem_map.mp hmem with ⟨p, hp, hpr⟩
  refine ⟨p, hp, hpr.symm, ?_⟩
  rw [← hpr] at hcond
  simpa using hcond

theorem mem_output_of_entry (T : List Transaction) (H : List Head) (k : String)
    (e : SummaryEntry) (hmem : (k, e) ∈ finalSummary T H)
    (hpos : 0 < e.income ∨ 0 < e.expense) :
    (⟨k, e.type, e.income, e.expense, e.income - e.expense⟩ : SummaryRow)
      ∈ getPLSummaryData T H := by
  rw [mem_getPLSummaryData_iff]
  refine List.mem_filter.mpr ⟨?_, by simpa using hpos⟩
  exact List.mem_map.mpr ⟨(k, e), hmem, rfl⟩

theorem output_head_unique (T : List Transaction) (H : List Head) (r₁ r₂ : SummaryRow)
    (h₁ : r₁ ∈ getPLSummaryData T H) (h₂ : r₂ ∈ getPLSummaryData T H)
    (hhead : r₁.Head = r₂.Head) : r₁ = r₂ := by
  rcases output_row_entry T H r₁ h₁ with ⟨p₁, hp₁, hr₁, _⟩
  rcases output_row_entry T H r₂ h₂ with ⟨p₂, hp₂, hr₂, _⟩
  have hk : p₁.1 = p₂.1 := by
    rw [hr₁, hr₂] at hhead
    exact hhead
  have he : p₁.2 = p₂.2 := by
    refine entry_unique_of_nodup (finalSummary T H) p₂.1 p₁.2 p₂.2
      (keysOf_finalSummary_nodup T H) ?_ ?_
    · rw [← hk]
      exact hp₁
    · exact hp₂
  rw [hr₁, hr₂, hk, he]

theorem incSum_nonneg (H : List Head) (T : List Transaction) (k : String)
    (hpos : ∀ t ∈ T, 0 ≤ t.amount) : 0 ≤ incSum H T k := by
  refine List.sum_nonneg ?_
  intro x hx
  rcases List.mem_map.mp hx with ⟨t, ht, rfl⟩
  rw [incContrib]
  by_cases hc : resolveName H t = k ∧ t.type = "income"
  · rw [if_pos hc]
    exact hpos t ht
  · rw [if_neg hc]

theorem expSum_nonneg (H : List Head) (T : List Transaction) (k : String)
    (hpos : ∀ t ∈ T, 0 ≤ t.amount) : 0 ≤ expSum H T k := by
  refine List.sum_nonneg ?_
  intro x hx
  rcases List.mem_map.mp hx with ⟨t, ht, rfl⟩
  rw [expContrib]
  by_cases hc : resolveName H t = k ∧ t.type ≠ "income"
  · rw [if_pos hc]
    exact hpos t ht
  · rw [if_neg hc]

theorem incomeOf_finalSummary (T : List Transaction) (H : List Head) (k : String) :
    incomeOf (finalSummary T H) k = incSum H T k := by
  rw [finalSummary, incomeOf_processTransactions, incomeOf_seedHeads, zero_add]

theorem expenseOf_finalSummary (T : List Transaction) (H : List Head) (k : String) :
    expenseOf (finalSummary T H) k = expSum H T k := by
  rw [finalSummary, expenseOf_processTransactions, expenseOf_seedHeads, zero_add]

theorem entry_nonneg (T : List Transaction) (H : List Head) (k : String) (e : SummaryEntry)
    (hpos : ∀ t ∈ T, 0 ≤ t.amount) (hmem : (k, e) ∈ finalSummary T H) :
    0 ≤ e.income ∧ 0 ≤ e.expense := by
  constructor
  · rw [← incomeOf_of_mem_nodup _ _ _ (keysOf_finalSummary_nodup T H) hmem,
      incomeOf_finalSummary]
    exact incSum_nonneg H T k hpos
  · rw [← expenseOf_of_mem_nodup _ _ _ (keysOf_finalSummary_nodup T H) hmem,
      expenseOf_finalSummary]
    exact expSum_nonneg H T k hpos

theorem sum_map_add_int {α : Type} (l : List α) (f g : α → Int) :
    (l.map (fun x => f x + g x)).sum = (l.map f).sum + (l.map g).sum := by
  induction l with
  | nil => simp
  | cons x xs ih =>
    simp only [List.map_cons, List.sum_cons, ih]
    omega

theorem sum_map_filter_eq {α : Type} (l : List α) (p : α → Bool) (f : α → Int)
    (h : ∀ x ∈ l, p x = false → f x = 0) :
    ((l.filter p).map f).sum = (l.map f).sum := by
  induction l with
  | nil => simp
  | cons x xs ih =>
    have ih' := ih (fun y hy hpy => h y (List.mem_cons_of_mem x hy) hpy)
    cases hx : p x
    · rw [List.filter_cons_of_neg (by simp [hx]), ih', List.map_cons, List.sum_cons,
        h x (List.mem_cons_self _ _) hx, zero_add]
    · rw [List.filter_cons_of_pos (by simp [hx]), List.map_cons, List.sum_cons, ih',
        List.map_cons, List.sum_cons]

theorem sum_pos_of_mem_pos (l : List Int) (x : Int) (hx : x ∈ l) (hxpos : 0 < x)
    (hall : ∀ y ∈ l, 0 ≤ y) : 0 < l.sum := by
  induction l with
  | nil => cases hx
  | cons a as ih =>
    rw [List.sum_cons]
    rcases List.mem_cons.mp hx with rfl | hmem
    · have : 0 ≤ as.sum :=
        List.sum_nonneg (fun y hy => hall y (List.mem_cons_of_mem _ hy))
      omega
    · have h1 : 0 ≤ a := hall a (List.mem_cons_self _ _)
      have h2 := ih hmem (fun y hy => hall y (List.mem_cons_of_mem a hy))
      omega

theorem contrib_total (H : List Head) (t : Transaction) (k : String) :
    incContrib H t k + expContrib H t k
      = if resolveName H t = k then t.amount else 0 := by
  rw [incContrib, expContrib]
  by_cases hr : resolveName H t = k
  · by_cases ht : t.type = "income"
    · rw [if_pos ⟨hr, ht⟩, if_neg (fun hc => hc.2 ht), if_pos hr, add_zero]
    · rw [if_neg (fun hc => ht hc.2), if_pos ⟨hr, ht⟩, if_pos hr, zero_add]
  · rw [if_neg (fun hc => hr hc.1), if_neg (fun hc => hr hc.1), if_neg hr, add_zero]

theorem output_heads_nodup (T : List Transaction) (H : List Head) :
    ((getPLSummaryData T H).map (·.Head)).Nodup := by
  have h1 : ((summaryRows (finalSummary T H)).map (·.Head)).Nodup := by
    rw [summaryRows, List.map_map]
    exact keysOf_finalSummary_nodup T H
  have h2 : ((summaryRows (finalSummary T H)).filter
      (fun item => decide (0 < item.Income) || decide (0 < item.Expense))).Sublist
      (summaryRows (finalSummary T H)) := List.filter_sublist _
  have h3 := (h2.map (fun r : SummaryRow => r.Head)).nodup h1
  rw [getPLSummaryData_eq]
  exact ((List.perm_insertionSort _ _).map (fun r : SummaryRow => r.Head)).nodup_iff.mpr h3

theorem length_filter_le_one_of_nodup_map {α : Type} (l : List α) (f : α → String)
    (n : String) (h : (l.map f).Nodup) :
    (l.filter (fun x => f x == n)).length ≤ 1 := by
  induction l with
  | nil => simp
  | cons x xs ih =>
    rw [List.map_cons, List.nodup_cons] at h
    cases hx : (f x == n)
    · rw [List.filter_cons_of_neg (by simp [hx])]
      exact ih h.2
    · rw [List.filter_cons_of_pos (by simp [hx])]
      have hfx : f x = n := beq_iff_eq.mp hx
      have : xs.filter (fun y => f y == n) = [] := by
        rw [List.filter_eq_nil_iff]
        intro y hy
        intro hc
        have : f y = f x := by rw [hfx]; exact beq_iff_eq.mp hc
        exact h.1 (this ▸ List.mem_map_of_mem f hy)
      rw [this]
      simp

theorem getVal_restrict (row : Record) (ks : List String) (k : String)
    (hk : ks.contains k = true) :
    getVal (row.filter (fun p => ks.contains p.1)) k = getVal row k := by
  induction row with
  | nil => rfl
  | cons p rest ih =>
    by_cases hpk : p.1 = k
    · have hkeep : ks.contains p.1 = true := by rw [hpk]; exact hk
      rw [List.filter_cons_of_pos (by exact hkeep)]
      rw [getVal, List.find?_cons_of_pos _ (by simpa using hpk)]
      conv_rhs => rw [getVal, List.find?_cons_of_pos _ (by simpa using hpk)]
    · cases hkeep : ks.contains p.1
      · rw [List.filter_cons_of_neg (by rw [hkeep]; exact Bool.false_ne_true), ih]
        conv_rhs => rw [getVal, List.find?_cons_of_neg _ (by simpa using hpk)]
        rfl
      · rw [List.filter_cons_of_pos (by exact hkeep)]
        rw [getVal, List.find?_cons_of_neg _ (by simpa using hpk)]
        conv_rhs => rw [getVal, List.find?_cons_of_neg _ (by simpa using hpk)]
        exact ih

/-! ## Spec-side description of a CSV cell

`csvCellSpec` restates the serializer's cell contract in the spec's own
words — stringified value (empty for null/undefined), every double-quote
doubled, wrapped in quotes exactly when the escaped cell contains a
comma, double-quote or newline — to be compared with the source-derived
`renderCell`. -/

/-- Doubling every double-quote, stated as a flat expansion of each
character. -/
def specEscape (s : String) : String :=
  String.mk (s.data.flatMap (fun c => if c = '"' then ['"', '"'] else [c]))

/-- The spec's wrap condition: the escaped cell contains a
double-quote, comma, or newline. -/
def specNeedsQuote (s : String) : Prop :=
  '"' ∈ s.data ∨ ',' ∈ s.data ∨ '\n' ∈ s.data

instance (s : String) : Decidable (specNeedsQuote s) := by
  rw [specNeedsQuote]
  infer_instance

/-- A CSV cell as §4.3 of the specification words it. -/
def csvCellSpec (v : Option String) : String :=
  let esc := specEscape (v.getD "")
  if specNeedsQuote esc then "\"" ++ esc ++ "\"" else esc

theorem escapeQuotes_eq_specEscape (s : String) : escapeQuotes s = specEscape s := by
  rw [escapeQuotes, specEscape]
  congr 1
  induction s.data with
  | nil => rfl
  | cons c cs ih =>
    simp only [List.foldr_cons, List.flatMap_cons, ih]
    by_cases hc : c = '"'
    · rw [if_pos (show (c == '"') = true by simpa using hc), if_pos hc]
      rfl
    · rw [if_neg (show ¬(c == '"') = true by simpa using hc), if_neg hc]
      rfl

theorem cellNeedsQuoting_iff (s : String) :
    cellNeedsQuoting s = true ↔ specNeedsQuote s := by
  rw [cellNeedsQuoting, specNeedsQuote, List.any_eq_true]
  constructor
  · rintro ⟨c, hc, hor⟩
    rcases Bool.or_eq_true_iff.mp hor with hor' | h3
    · rcases Bool.or_eq_true_iff.mp hor' with h1 | h2
      · exact Or.inl ((beq_iff_eq.mp h1) ▸ hc)
      · exact Or.inr (Or.inl ((beq_iff_eq.mp h2) ▸ hc))
    · exact Or.inr (Or.inr ((beq_iff_eq.mp h3) ▸ hc))
  · rintro (h | h | h)
    · exact ⟨'"', h, by simp⟩
    · exact ⟨',', h, by simp⟩
    · exact ⟨'\n', h, by simp⟩

/-! # Claim theorems -/

theorem sum_rows (m : SummaryMap) :
    ((summaryRows m).map (fun r => r.Income + r.Expense)).sum = sumEntries m := by
  rw [summaryRows, List.map_map]
  rfl

/-- C1: Conservation of totals — for every transaction list `T` (each
transaction with a positive amount and type `"income"` or `"expense"`)
and head list `H`, the sum of the `Income` fields plus the sum of the
`Expense` fields over all rows of `getPLSummaryData T H` equals the sum
of the amounts of all transactions of `T`. -/
theorem C1_conservation_of_totals (T : List Transaction) (H : List Head)
    (hpos : ∀ t ∈ T, 0 < t.amount)
    (htype : ∀ t ∈ T, t.type = "income" ∨ t.type = "expense") :
    ((getPLSummaryData T H).map (·.Income)).sum
        + ((getPLSummaryData T H).map (·.Expense)).sum
      = (T.map (·.amount)).sum := by
  have hnn : ∀ t ∈ T, 0 ≤ t.amount := fun t ht => le_of_lt (hpos t ht)
  rw [← sum_map_add_int, getPLSummaryData_eq]
  rw [((List.perm_insertionSort _ _).map (fun r : SummaryRow => r.Income + r.Expense)).sum_eq]
  rw [sum_map_filter_eq _ _ _ (fun r hr hpr => ?_), sum_rows, finalSummary,
    sumEntries_processTransactions, sumEntries_seedHeads, zero_add]
  rcases List.mem_map.mp hr with ⟨p, hp, rfl⟩
  have hnneg := entry_nonneg T H p.1 p.2 hnn hp
  simp only [Bool.or_eq_false_iff, decide_eq_false_iff_not, not_lt] at hpr
  have h1 := hnneg.1
  have h2 := hnneg.2
  have h3 := hpr.1
  have h4 := hpr.2
  simp only []
  omega

/-- Witness for C1 at the specification's own scenario (§8): Salary 5000
income, Rent 1200 expense. -/
theorem C1_conservation_witness :
    ((getPLSummaryData
          [⟨1, 5000, "income", 1, "2024-01-05"⟩, ⟨2, 1200, "expense", 2, "2024-01-10"⟩]
          [⟨1, "Salary", "income"⟩, ⟨2, "Rent", "expense"⟩]).map (·.Income)).sum
        + ((getPLSummaryData
          [⟨1, 5000, "income", 1, "2024-01-05"⟩, ⟨2, 1200, "expense", 2, "2024-01-10"⟩]
          [⟨1, "Salary", "income"⟩, ⟨2, "Rent", "expense"⟩]).map (·.Expense)).sum
      = (([⟨1, 5000, "income", 1, "2024-01-05"⟩,
          ⟨2, 1200, "expense", 2, "2024-01-10"⟩] : List Transaction).map (·.amount)).sum :=
  C1_conservation_of_totals _ _ (by decide) (by decide)

theorem filter_idem {α : Type} (p : α → Bool) (l : List α) :
    (l.filter p).filter p = l.filter p := by
  induction l with
  | nil => rfl
  | cons x xs ih =>
    cases hx : p x
    · rw [List.filter_cons_of_neg (by simp [hx]), ih]
    · rw [List.filter_cons_of_pos (by simp [hx]), List.filter_cons_of_pos (by simp [hx]), ih]

/-- C8: The date-range filter is idempotent — filtering its own output
with the same start and end dates returns exactly that output. -/
theorem C8_filter_idempotent (T : List Transaction) (startDate endDate : String) :
    filteredTransactions (filteredTransactions T startDate endDate) startDate endDate
      = filteredTransactions T startDate endDate :=
  filter_idem _ _

/-- C4: The date-range filter keeps exactly the transactions whose date
field is non-empty, parses to a valid calendar day `d`, and lies in the
inclusive range `[start, end]` — realized in the code by advancing the
end day by one and comparing with strict less-than; missing or
unparsable dates are dropped without error (the filter is total). -/
theorem C4_date_range_filter (T : List Transaction) (s e : String) (ds de : Nat)
    (hs : parseDate s = some ds) (he : parseDate e = some de) (t : Transaction) :
    t ∈ filteredTransactions T s e
      ↔ t ∈ T ∧ t.date ≠ "" ∧ ∃ d, parseDate t.date = some d ∧ ds ≤ d ∧ d ≤ de := by
  simp only [filteredTransactions, hs, he, Option.map_some']
  rw [List.mem_filter]
  constructor
  · rintro ⟨hmem, hcond⟩
    rw [Bool.and_eq_true] at hcond
    obtain ⟨hdate, hcond⟩ := hcond
    refine ⟨hmem, by simpa using hdate, ?_⟩
    cases hd : parseDate t.date with
    | none =>
      rw [hd] at hcond
      simp at hcond
    | some d =>
      rw [hd] at hcond
      rw [show (match some d, some ds, some (de + 1) with
          | some d, some s, some e => decide (s ≤ d) && decide (d < e)
          | _, _, _ => false) = (decide (ds ≤ d) && decide (d < de + 1)) from rfl,
        Bool.and_eq_true, decide_eq_true_iff, decide_eq_true_iff] at hcond
      exact ⟨d, rfl, hcond.1, Nat.lt_succ_iff.mp hcond.2⟩
  · rintro ⟨hmem, hdate, d, hd, hle, hge⟩
    refine ⟨hmem, ?_⟩
    rw [Bool.and_eq_true]
    refine ⟨by simpa using hdate, ?_⟩
    rw [hd]
    rw [show (match some d, some ds, some (de + 1) with
        | some d, some s, some e => decide (s ≤ d) && decide (d < e)
        | _, _, _ => false) = (decide (ds ≤ d) && decide (d < de + 1)) from rfl,
      Bool.and_eq_true, decide_eq_true_iff, decide_eq_true_iff]
    exact ⟨hle, Nat.lt_succ_iff.mpr hge⟩

/-- Witness for C4 at the specification's scenario (§8): the range
2024-01-06 to 2024-01-31 retains transaction "b" dated 2024-01-10. -/
theorem C4_date_range_witness :
    (⟨2, 1200, "expense", 2, "2024-01-10"⟩ : Transaction)
        ∈ filteredTransactions
          [⟨1, 5000, "income", 1, "2024-01-05"⟩, ⟨2, 1200, "expense", 2, "2024-01-10"⟩]
          "2024-01-06" "2024-01-31"
      ↔ (⟨2, 1200, "expense", 2, "2024-01-10"⟩ : Transaction)
          ∈ [⟨1, 5000, "income", 1, "2024-01-05"⟩,
              (⟨2, 1200, "expense", 2, "2024-01-10"⟩ : Transaction)]
        ∧ (⟨2, 1200, "expense", 2, "2024-01-10"⟩ : Transaction).date ≠ ""
        ∧ ∃ d, parseDate (⟨2, 1200, "expense", 2, "2024-01-10"⟩ : Transaction).date = some d
            ∧ 738890 ≤ d ∧ d ≤ 738915 :=
  C4_date_range_filter _ "2024-01-06" "2024-01-31" 738890 738915 (by decide) (by decide) _

/-- C5: The CSV serializer renders every cell by stringifying it (empty
for null/undefined), doubling each double-quote, and wrapping in double
quotes exactly when the escaped cell contains a comma, double-quote or
newline (`renderCell` agrees with the spec-worded `csvCellSpec` on every
cell); the empty record list serializes to the empty string. -/
theorem C5_csv_serializer_cells :
    convertArrayOfObjectsToCSV [] = ""
      ∧ ∀ v : Option String, renderCell v = csvCellSpec v := by
  refine ⟨rfl, fun v => ?_⟩
  simp only [renderCell, csvCellSpec, escapeQuotes_eq_specEscape]
  by_cases h : specNeedsQuote (specEscape (v.getD ""))
  · rw [if_pos ((cellNeedsQuoting_iff _).mpr h), if_pos h]
  · rw [if_neg (fun hc => h ((cellNeedsQuoting_iff _).mp hc)), if_neg h]

/-- C9: In the `AllTimeSummary` aggregator, every output row is labelled
`"Income"` exactly when its accumulated income total is strictly
positive and `"Expense"` otherwise — regardless of any head's declared
`headType` or the transactions' own `type` strings (which only feed the
accumulated totals, not the label). -/
theorem C9_alltime_type_label (T : List Transaction) (H : List Head) (r : AllTimeRow)
    (hr : r ∈ getPLSummary T H) :
    (r.type = "Income" ↔ 0 < r.income) ∧ (r.type = "Expense" ↔ ¬0 < r.income) := by
  rw [getPLSummary] at hr
  rcases List.mem_map.mp hr with ⟨p, hp, rfl⟩
  by_cases h : 0 < p.2.income
  · simp [h]
  · simp [h]

/-- Witness for C9: a single orphaned income transaction yields the row
`Unknown / Income / 5 / 0 / 5`, whose label agrees with `0 < income`. -/
theorem C9_alltime_type_label_witness :
    ((⟨"Unknown", "Income", 5, 0, 5⟩ : AllTimeRow).type = "Income"
        ↔ 0 < (⟨"Unknown", "Income", 5, 0, 5⟩ : AllTimeRow).income)
      ∧ ((⟨"Unknown", "Income", 5, 0, 5⟩ : AllTimeRow).type = "Expense"
        ↔ ¬0 < (⟨"Unknown", "Income", 5, 0, 5⟩ : AllTimeRow).income) :=
  C9_alltime_type_label [⟨1, 5, "income", 99, "2024-01-05"⟩] [] _ (by decide)

/-- C10: The CSV serializer takes the header line and per-row cell order
solely from the first record's key list: the output equals the header of
the first record's keys followed by one line per record rendered at
those keys; dropping from the later records every key that the first
record lacks leaves the output unchanged; and a `null`/`undefined` cell
renders as the empty string. -/
theorem C10_csv_first_record_keys (r : Record) (rs : List Record) :
    (convertArrayOfObjectsToCSV (r :: rs)
        = String.intercalate "," (r.map (·.1)) ++ "\n"
          ++ String.intercalate "\n" ((r :: rs).map (renderRow (r.map (·.1)))))
      ∧ convertArrayOfObjectsToCSV (r :: rs)
        = convertArrayOfObjectsToCSV
            (r :: rs.map (fun row => row.filter (fun p => (r.map (·.1)).contains p.1)))
      ∧ renderCell none = "" := by
  refine ⟨rfl, ?_, rfl⟩
  simp only [convertArrayOfObjectsToCSV]
  congr 2
  rw [List.map_cons, List.map_cons, List.map_map]
  congr 1
  refine (List.map_congr_left (fun row _ => ?_)).symm
  simp only [Function.comp]
  rw [renderRow, renderRow]
  congr 1
  refine List.map_congr_left (fun k hk => ?_)
  rw [getVal_restrict row (r.map (·.1)) k (by simpa using hk)]

/-- C3: A head (row) appears in the aggregator's output exactly when its
accumulated income and expense totals are not both zero (amounts being
positive, per the data model); and every head of the head list is
present in the seeded map before the zero-filter. -/
theorem C3_zero_rows_omitted (T : List Transaction) (H : List Head)
    (hpos : ∀ t ∈ T, 0 < t.amount) (k : String) (e : SummaryEntry)
    (hmem : (k, e) ∈ finalSummary T H) :
    ((∃ r ∈ getPLSummaryData T H, r.Head = k) ↔ ¬(e.income = 0 ∧ e.expense = 0))
      ∧ ∀ h ∈ H, hasKey (seedHeads H) h.name = true := by
  have hnn : ∀ t ∈ T, 0 ≤ t.amount := fun t ht => le_of_lt (hpos t ht)
  refine ⟨⟨?_, ?_⟩, fun h hh => hasKey_seedHeads_of_mem H h hh⟩
  · rintro ⟨r, hr, hhead⟩ ⟨hz1, hz2⟩
    rcases output_row_entry T H r hr with ⟨p, hp, hre, hposr⟩
    have hk : p.1 = k := by rw [hre] at hhead; exact hhead
    have hp' : (k, p.2) ∈ finalSummary T H := by rw [← hk]; exact hp
    have he : p.2 = e :=
      entry_unique_of_nodup _ k p.2 e (keysOf_finalSummary_nodup T H) hp' hmem
    rw [he, hz1, hz2] at hposr
    rcases hposr with h | h <;> exact absurd h (lt_irrefl 0)
  · intro hne
    have h1 := (entry_nonneg T H k e hnn hmem).1
    have h2 := (entry_nonneg T H k e hnn hmem).2
    have hpos' : 0 < e.income ∨ 0 < e.expense := by
      by_cases hi : e.income = 0
      · by_cases hx : e.expense = 0
        · exact absurd ⟨hi, hx⟩ hne
        · right; omega
      · left; omega
    exact ⟨_, mem_output_of_entry T H k e hmem hpos', rfl⟩

/-- Witness for C3: with the scenario heads plus an extra zero-activity
head "Misc", the "Misc" entry is seeded (present in `finalSummary`) yet
has no output row, matching the iff at totals (0, 0). -/
theorem C3_zero_rows_witness :
    ((∃ r ∈ getPLSummaryData
          [⟨1, 5000, "income", 1, "2024-01-05"⟩, ⟨2, 1200, "expense", 2, "2024-01-10"⟩]
          [⟨1, "Salary", "income"⟩, ⟨2, "Rent", "expense"⟩, ⟨3, "Misc", "expense"⟩],
        r.Head = "Misc")
      ↔ ¬((0 : Int) = 0 ∧ (0 : Int) = 0))
      ∧ ∀ h ∈ ([⟨1, "Salary", "income"⟩, ⟨2, "Rent", "expense"⟩,
          ⟨3, "Misc", "expense"⟩] : List Head),
        hasKey (seedHeads [⟨1, "Salary", "income"⟩, ⟨2, "Rent", "expense"⟩,
          ⟨3, "Misc", "expense"⟩]) h.name = true :=
  C3_zero_rows_omitted _ _ (by decide) "Misc" ⟨0, 0, "expense"⟩ (by decide)

/-- C2 (counterexample to the distinctness conjunct): with a real head
literally named "Uncategorized" (id 7, expense 3) and an orphaned
transaction (headId 99, income 5), the aggregator produces a single
merged row — the orphan bucket is NOT distinct from the real head's
row. -/
theorem C2_uncategorized_counterexample :
    getPLSummaryData
        [⟨1, 5, "income", 99, "2024-01-05"⟩, ⟨2, 3, "expense", 7, "2024-01-06"⟩]
        [⟨7, "Uncategorized", "expense"⟩]
      = [⟨"Uncategorized", "expense", 5, 3, 2⟩] := by
  decide

/-- C2 (amended): every orphaned transaction (headId matching no head)
is aggregated into a row labelled "Uncategorized" without any error (the
aggregator is total), and there is at most one such row — orphans share
the row of a real head named "Uncategorized" when one exists, rather
than occupying a distinct bucket. -/
theorem C2_uncategorized_bucket (T : List Transaction) (H : List Head) (t : Transaction)
    (ht : t ∈ T) (horph : ∀ h ∈ H, h.id ≠ t.headId)
    (hpos : ∀ t' ∈ T, 0 < t'.amount) :
    (∃ r ∈ getPLSummaryData T H, r.Head = "Uncategorized")
      ∧ ∀ r₁ ∈ getPLSummaryData T H, ∀ r₂ ∈ getPLSummaryData T H,
          r₁.Head = "Uncategorized" → r₂.Head = "Uncategorized" → r₁ = r₂ := by
  have hnn : ∀ t' ∈ T, 0 ≤ t'.amount := fun t' ht' => le_of_lt (hpos t' ht')
  have hres : resolveName H t = "Uncategorized" := by
    rw [resolveName]
    have hfind : H.find? (fun h => h.id == t.headId) = none := by
      rw [List.find?_eq_none]
      intro h hh
      simpa using horph h hh
    rw [hfind]
  constructor
  · have hkey : hasKey (finalSummary T H) "Uncategorized" = true :=
      (hasKey_processTransactions H T (seedHeads H) "Uncategorized").mpr
        (Or.inr ⟨t, ht, hres⟩)
    rcases exists_find?_of_hasKey _ _ hkey with ⟨e, hfind⟩
    have hmem : ("Uncategorized", e) ∈ finalSummary T H :=
      List.mem_of_find?_eq_some hfind
    have hsum : e.income + e.expense
        = incSum H T "Uncategorized" + expSum H T "Uncategorized" := by
      rw [← incomeOf_of_mem_nodup _ _ _ (keysOf_finalSummary_nodup T H) hmem,
        ← expenseOf_of_mem_nodup _ _ _ (keysOf_finalSummary_nodup T H) hmem,
        incomeOf_finalSummary, expenseOf_finalSummary]
    have hpos2 : 0 < incSum H T "Uncategorized" + expSum H T "Uncategorized" := by
      rw [incSum, expSum, ← sum_map_add_int]
      refine sum_pos_of_mem_pos _
        (incContrib H t "Uncategorized" + expContrib H t "Uncategorized")
        (List.mem_map_of_mem _ ht) ?_ ?_
      · rw [contrib_total, if_pos hres]
        exact hpos t ht
      · intro y hy
        rcases List.mem_map.mp hy with ⟨t', ht', rfl⟩
        rw [contrib_total]
        by_cases hc : resolveName H t' = "Uncategorized"
        · rw [if_pos hc]
          exact hnn t' ht'
        · rw [if_neg hc]
    have h1 := (entry_nonneg T H _ e hnn hmem).1
    have h2 := (entry_nonneg T H _ e hnn hmem).2
    have hpos3 : 0 < e.income ∨ 0 < e.expense := by omega
    exact ⟨_, mem_output_of_entry T H "Uncategorized" e hmem hpos3, rfl⟩
  · intro r₁ h₁ r₂ h₂ hh₁ hh₂
    exact output_head_unique T H r₁ r₂ h₁ h₂ (hh₁.trans hh₂.symm)

/-- Witness for C2 (amended) at the spec's scenario: a transaction with
headId 99 and no matching head lands in an "Uncategorized" row. -/
theorem C2_uncategorized_witness :
    (∃ r ∈ getPLSummaryData [⟨1, 5, "income", 99, "2024-01-05"⟩] [⟨1, "Salary", "income"⟩],
        r.Head = "Uncategorized")
      ∧ ∀ r₁ ∈ getPLSummaryData [⟨1, 5, "income", 99, "2024-01-05"⟩]
            [⟨1, "Salary", "income"⟩],
          ∀ r₂ ∈ getPLSummaryData [⟨1, 5, "income", 99, "2024-01-05"⟩]
            [⟨1, "Salary", "income"⟩],
          r₁.Head = "Uncategorized" → r₂.Head = "Uncategorized" → r₁ = r₂ :=
  C2_uncategorized_bucket _ _ ⟨1, 5, "income", 99, "2024-01-05"⟩
    (by decide) (by decide) (by decide)

/-- C7: When the head list carries two or more heads with the same name
`n`, their totals merge under the single output row named `n` (its
Income and Expense are the sums contributed by all transactions that
resolve to `n`, and there is at most one row named `n`), and that row's
reported type label is the `headType` of the last such head seeded. -/
theorem C7_duplicate_head_names (T : List Transaction) (H : List Head) (n τ : String)
    (hdup : 2 ≤ (H.filter (fun h => h.name == n)).length)
    (hlast : (lastNamed H n).map (·.headType) = some τ) :
    (∀ r ∈ getPLSummaryData T H, r.Head = n →
        r.«Type» = τ ∧ r.Income = incSum H T n ∧ r.Expense = expSum H T n)
      ∧ ((getPLSummaryData T H).filter (fun r => r.Head == n)).length ≤ 1 := by
  constructor
  · intro r hr hhead
    rcases output_row_entry T H r hr with ⟨p, hp, hre, _⟩
    have hk : p.1 = n := by rw [hre] at hhead; exact hhead
    have hmem : (n, p.2) ∈ finalSummary T H := by rw [← hk]; exact hp
    have htype : typeOf (finalSummary T H) n = some p.2.type :=
      typeOf_of_mem_nodup _ _ _ (keysOf_finalSummary_nodup T H) hmem
    have hseedkey : hasKey (seedHeads H) n = true := by
      cases hl : lastNamed H n with
      | none => rw [hl] at hlast; cases hlast
      | some h0 => exact hasKey_of_find?_eq_some _ _ _ (by rw [find?_seedHeads, hl]; rfl)
    have htype2 : typeOf (finalSummary T H) n = (lastNamed H n).map (·.headType) := by
      rw [finalSummary, typeOf_processTransactions H T _ _ hseedkey, typeOf_seedHeads]
    rw [htype2, hlast] at htype
    have hty : p.2.type = τ := (Option.some_injective _ htype).symm
    refine ⟨?_, ?_, ?_⟩
    · rw [hre]
      exact hty
    · rw [hre]
      show p.2.income = incSum H T n
      rw [← incomeOf_of_mem_nodup _ _ _ (keysOf_finalSummary_nodup T H) hmem,
        incomeOf_finalSummary]
    · rw [hre]
      show p.2.expense = expSum H T n
      rw [← expenseOf_of_mem_nodup _ _ _ (keysOf_finalSummary_nodup T H) hmem,
        expenseOf_finalSummary]
  · exact length_filter_le_one_of_nodup_map _ _ n (output_heads_nodup T H)

/-- Witness for C7: two heads both named "A" (income-typed seeded first,
expense-typed seeded last); the "A" row carries the last head's type. -/
theorem C7_duplicate_head_names_witness :
    (∀ r ∈ getPLSummaryData [⟨1, 9, "income", 1, "2024-01-05"⟩]
        [⟨1, "A", "income"⟩, ⟨2, "A", "expense"⟩], r.Head = "A" →
        r.«Type» = "expense"
          ∧ r.Income = incSum [⟨1, "A", "income"⟩, ⟨2, "A", "expense"⟩]
              [⟨1, 9, "income", 1, "2024-01-05"⟩] "A"
          ∧ r.Expense = expSum [⟨1, "A", "income"⟩, ⟨2, "A", "expense"⟩]
              [⟨1, 9, "income", 1, "2024-01-05"⟩] "A")
      ∧ ((getPLSummaryData [⟨1, 9, "income", 1, "2024-01-05"⟩]
          [⟨1, "A", "income"⟩, ⟨2, "A", "expense"⟩]).filter
            (fun r => r.Head == "A")).length ≤ 1 :=
  C7_duplicate_head_names _ _ "A" "expense" (by decide) (by decide)

/-- C6 (counterexample to full order-invariance): with two orphaned
transactions of different types, the `type` recorded for the
transaction-seeded "Uncategorized" entry is the FIRST contributing
transaction's type, so swapping the two transactions changes the output
row's Type label. -/
theorem C6_order_counterexample :
    getPLSummaryData
        [⟨1, 5, "income", 99, "2024-01-05"⟩, ⟨2, 7, "expense", 99, "2024-01-06"⟩] []
      ≠ getPLSummaryData
        [⟨2, 7, "expense", 99, "2024-01-06"⟩, ⟨1, 5, "income", 99, "2024-01-05"⟩] [] := by
  decide

/-- C6 (amended): the aggregator is a pure function of its arguments,
and its output — row order included — is invariant under any permutation
of the transaction list PROVIDED every transaction's headId resolves to
a head of the head list (the only order-sensitive datum is the type
label of a transaction-seeded bucket such as "Uncategorized"). -/
theorem C6_order_invariance_amended (T₁ T₂ : List Transaction) (H : List Head)
    (hperm : T₁.Perm T₂) (hres : ∀ t ∈ T₁, ∃ h ∈ H, h.id = t.headId) :
    getPLSummaryData T₁ H = getPLSummaryData T₂ H := by
  have hresolve : ∀ (T : List Transaction), (∀ t ∈ T, ∃ h ∈ H, h.id = t.headId) →
      ∀ t ∈ T, hasKey (seedHeads H) (resolveName H t) = true := by
    intro T hT t ht
    rcases hT t ht with ⟨h, hh, hid⟩
    cases hfind : H.find? (fun h' => h'.id == t.headId) with
    | none =>
      exfalso
      rw [List.find?_eq_none] at hfind
      exact hfind h hh (by simpa using hid)
    | some h' =>
      have hmem : h' ∈ H := List.mem_of_find?_eq_some hfind
      rw [resolveName, hfind]
      exact hasKey_seedHeads_of_mem H h' hmem
  have hstruct : ∀ (T : List Transaction), (∀ t ∈ T, ∃ h ∈ H, h.id = t.headId) →
      finalSummary T H = (seedHeads H).map (fun p => (p.1,
        ⟨p.2.income + incSum H T p.1, p.2.expense + expSum H T p.1, p.2.type⟩)) := by
    intro T hT
    rw [finalSummary]
    exact processTransactions_structure H T (seedHeads H)
      (keysOf_seedHeads_nodup H) (hresolve T hT)
  have hres₂ : ∀ t ∈ T₂, ∃ h ∈ H, h.id = t.headId := fun t ht =>
    hres t (hperm.mem_iff.mpr ht)
  have heq : finalSummary T₁ H = finalSummary T₂ H := by
    rw [hstruct T₁ hres, hstruct T₂ hres₂]
    refine List.map_congr_left (fun p _ => ?_)
    rw [incSum_perm H T₁ T₂ p.1 hperm, expSum_perm H T₁ T₂ p.1 hperm]
  rw [getPLSummaryData_eq, getPLSummaryData_eq, heq]

/-- Witness for C6 (amended): swapping two resolvable transactions
leaves the output unchanged. -/
theorem C6_order_invariance_witness :
    getPLSummaryData
        [⟨1, 5, "income", 1, "2024-01-05"⟩, ⟨2, 7, "expense", 2, "2024-01-06"⟩]
        [⟨1, "Salary", "income"⟩, ⟨2, "Rent", "expense"⟩]
      = getPLSummaryData
        [⟨2, 7, "expense", 2, "2024-01-06"⟩, ⟨1, 5, "income", 1, "2024-01-05"⟩]
        [⟨1, "Salary", "income"⟩, ⟨2, "Rent", "expense"⟩] :=
  C6_order_invariance_amended _ _ _ (List.Perm.swap _ _ _) (by decide)
